import Mathlib

/-!
Verification of the PLpgSQL reformatter (`src/parser.cpp`) against its
natural-language specification.  The development shallowly embeds the three
pipeline stages — the line-oriented macro preprocessor (`Preprocessor::process`),
the lexer (`Lexer::tokenize`) and the two-pass parser
(`Parser::firstPass` / `Parser::secondPass`) — as executable Lean functions
over `List Char` and `List Token`, and proves or refutes the frozen claims.

Strings are modelled as `List Char`; the C++ `std::string` positions become
list operations.  Loops whose bound is not structural take an explicit fuel
that provably suffices (or, for the one genuinely divergent loop, provably
never suffices).
-/

/-- ASCII apostrophe, used inside diagnostic texts. -/
def squote : Char := Char.ofNat 39

/-- ASCII double quote, the string-literal delimiter. -/
def dquote : Char := Char.ofNat 34

/-- C `isspace` on the ASCII range: space, \t, \n, \v, \f, \r. -/
def isspace (c : Char) : Bool :=
  c = ' ' || c = Char.ofNat 9 || c = Char.ofNat 10 ||
  c = Char.ofNat 11 || c = Char.ofNat 12 || c = Char.ofNat 13

/-- C `isdigit`. -/
def isdigit (c : Char) : Bool := 48 ≤ c.toNat && c.toNat ≤ 57

/-- C `isalpha` (ASCII letters, "C" locale). -/
def isalpha (c : Char) : Bool :=
  (65 ≤ c.toNat && c.toNat ≤ 90) || (97 ≤ c.toNat && c.toNat ≤ 122)

/-- C `isalnum`. -/
def isalnum (c : Char) : Bool := isalpha c || isdigit c

/-- C `ispunct`: printable, not alphanumeric, not space. -/
def ispunct (c : Char) : Bool :=
  33 ≤ c.toNat && c.toNat ≤ 126 && !(isalnum c)

/-- C `tolower` on ASCII. -/
def tolower (c : Char) : Char :=
  if 65 ≤ c.toNat ∧ c.toNat ≤ 90 then Char.ofNat (c.toNat + 32) else c

/-- Lowercasing of a whole word, as done by `std::transform(..., ::tolower)`. -/
def tolowerStr (s : List Char) : List Char := s.map tolower

/-- Number of newline characters in a char list (the lexer's line counting). -/
def countNL : List Char → Nat
  | [] => 0
  | c :: cs => (if c = Char.ofNat 10 then 1 else 0) + countNL cs

/-- Decimal digit expansion of a `Nat`, as produced by `std::to_string`.
The first argument is fuel; `natChars` supplies enough. -/
def natCharsAux : Nat → Nat → List Char → List Char
  | 0, _, acc => acc
  | f + 1, n, acc =>
    let d : Char := Char.ofNat (48 + n % 10)
    if n < 10 then d :: acc else natCharsAux f (n / 10) (d :: acc)

/-- Decimal representation of a `Nat` (`std::to_string` on a non-negative). -/
def natChars (n : Nat) : List Char := natCharsAux (n + 1) n []

/-- `std::to_string` on an `int` (line numbers). -/
def intChars (i : Int) : List Char :=
  if i < 0 then '-' :: natChars i.natAbs else natChars i.toNat

-- ------------------------------------------------------------------
-- Token model (enum TokenType / struct Token in parser.cpp)
-- ------------------------------------------------------------------

/-- The token kinds of `enum TokenType`; `OPERATOR` and `COMMENT` are declared
in the source but never produced. -/
inductive TokenType where
  | KEYWORD
  | IDENTIFIER
  | LITERAL
  | OPERATOR
  | SYMBOL
  | COMMENT
  | STRING_LITERAL
  | END_OF_FILE
deriving DecidableEq, Repr

open TokenType

/-- `struct Token`: kind, text, 1-based line (C++ `int`). -/
structure Token where
  type : TokenType
  value : List Char
  line : Int
deriving DecidableEq, Repr

/-- `struct FunctionSignature`: name, argument texts, first-seen line. -/
structure FunctionSignature where
  name : List Char
  argumentTypes : List (List Char)
  line : Int
deriving DecidableEq, Repr

/-- The fixed keyword set of `parser.cpp`. -/
def keywords : List (List Char) :=
  ["select".toList, "insert".toList, "update".toList, "delete".toList,
   "create".toList, "table".toList, "begin".toList, "end".toList,
   "declare".toList, "do".toList, "values".toList]

-- ------------------------------------------------------------------
-- Lexer (class Lexer)
-- ------------------------------------------------------------------

/-- Identifier continuation characters: `isalnum(peek()) || peek() == '_'`. -/
def isIdentChar (c : Char) : Bool := isalnum c || c = '_'

/-- Maximal run of characters satisfying `p`, together with the remainder:
the shape of the `while (p(peek())) value += advance();` loops. -/
def spanChars (p : Char → Bool) : List Char → List Char × List Char
  | [] => ([], [])
  | c :: cs =>
    if p c then
      let r := spanChars p cs
      (c :: r.1, r.2)
    else ([], c :: cs)

/-- `Lexer::handleStringLiteral` after the opening quote: consume until the
closing quote or end of input; the closing quote (when present) is consumed
but not part of the value.  Returns (value, remainder). -/
def strLitAux : List Char → List Char × List Char
  | [] => ([], [])
  | c :: cs =>
    if c = dquote then ([], cs)
    else
      let r := strLitAux cs
      (c :: r.1, r.2)

/-- `Lexer::handleIdentifierOrKeyword`'s classification of a completed word. -/
def mkWordTok (v : List Char) (ln : Int) : Token :=
  if keywords.contains (tolowerStr v) then ⟨KEYWORD, v, ln⟩ else ⟨IDENTIFIER, v, ln⟩

/-- `Lexer::tokenize`, one dispatch step per unit of fuel.  Each step consumes
at least one character, so fuel `length + 1` (see `tokenize`) always reaches
the end of the input; the fuel-0 clause is unreachable from `tokenize`. -/
def tokenizeAux : Nat → List Char → Int → List Token
  | 0, _, ln => [⟨END_OF_FILE, [], ln⟩]
  | _ + 1, [], ln => [⟨END_OF_FILE, [], ln⟩]
  | f + 1, c :: cs, ln =>
    if isspace c then
      tokenizeAux f cs (if c = Char.ofNat 10 then ln + 1 else ln)
    else if isalpha c || c = '_' then
      let r := spanChars isIdentChar cs
      mkWordTok (c :: r.1) ln :: tokenizeAux f r.2 ln
    else if isdigit c then
      let r := spanChars isdigit cs
      ⟨LITERAL, c :: r.1, ln⟩ :: tokenizeAux f r.2 ln
    else if c = dquote then
      let r := strLitAux cs
      ⟨STRING_LITERAL, r.1, ln + countNL r.1⟩ :: tokenizeAux f r.2 (ln + countNL r.1)
    else if ispunct c then
      ⟨SYMBOL, [c], ln⟩ :: tokenizeAux f cs ln
    else
      tokenizeAux f cs ln

/-- `Lexer::tokenize` on a whole input, starting at line 1. -/
def tokenize (cs : List Char) : List Token := tokenizeAux (cs.length + 1) cs 1

-- ------------------------------------------------------------------
-- Preprocessor (class Preprocessor)
-- ------------------------------------------------------------------

/-- Does `pat` occur at the very start of `s`?  (`line.find(pat) == 0`.) -/
def matchAt : List Char → List Char → Bool
  | [], _ => true
  | _ :: _, [] => false
  | p :: ps, c :: cs => p = c && matchAt ps cs

/-- `std::string::find(key, i)` scanning positions `i, i+1, ...`; fuel-driven,
`strFind` supplies sufficient fuel. -/
def strFindAux : Nat → List Char → List Char → Nat → Option Nat
  | 0, _, _, _ => none
  | f + 1, line, key, i =>
    if line.length < i + key.length then none
    else if matchAt key (line.drop i) then some i
    else strFindAux f line key (i + 1)

/-- `line.find(key, pos)`: first occurrence position at or after `pos`. -/
def strFind (line key : List Char) (pos : Nat) : Option Nat :=
  strFindAux (line.length + 1 - pos) line key pos

/-- One macro's replacement loop:
`while ((pos = line.find(key, pos)) != npos) { line.replace(pos, key.len, value); pos += value.len; }`.
Fuel-driven; `none` means the fuel ran out, which `replaceAll`'s fuel choice
makes equivalent to true divergence of the C++ loop. -/
def replaceAllAux : Nat → List Char → List Char → List Char → Nat → Option (List Char)
  | 0, _, _, _, _ => none
  | f + 1, key, v, line, pos =>
    match strFind line key pos with
    | none => some line
    | some p =>
      replaceAllAux f key v (line.take p ++ v ++ line.drop (p + key.length)) (p + v.length)

/-- The whole replacement loop for one `(key, value)` entry.  For a nonempty
key the loop performs at most `line.length` replacements (each replacement
removes `key.length ≥ 1` characters from the unscanned suffix), so fuel
`line.length + 1` is exact; for the empty key the loop never terminates and
`replaceAll` returns `none` for every fuel (see the C3 theorems). -/
def replaceAll (key v line : List Char) : Option (List Char) :=
  replaceAllAux (line.length + 1) key v line 0

/-- Substitution map: insertion-ordered association list modelling
`preprocessorMap` (`operator[]` overwrites in place or appends). -/
abbrev SubstMap : Type := List (List Char × List Char)

/-- `preprocessorMap[key] = value`. -/
def subInsert : SubstMap → List Char → List Char → SubstMap
  | [], k, v => [(k, v)]
  | (k0, v0) :: m, k, v =>
    if k0 = k then (k0, v) :: m else (k0, v0) :: subInsert m k v

/-- The `for (entry : preprocessorMap)` loop over one line. -/
def applySubst : SubstMap → List Char → Option (List Char)
  | [], line => some line
  | (k, v) :: m, line =>
    match replaceAll k v line with
    | none => none
    | some l2 => applySubst m l2

/-- Trim leading and trailing whitespace
(`std::regex_replace(value, "^\s+|\s+$", "")`). -/
def trimWS (s : List Char) : List Char :=
  ((((s.dropWhile fun c => isspace c).reverse).dropWhile fun c => isspace c)).reverse

/-- Parsing of a `#define` line: `defineStream >> directive >> key;
getline(defineStream, value);` followed by the whitespace trim.  When no
second word exists the extraction fails and both key and value stay empty,
exactly as the failed C++ stream operations leave them. -/
def parseDefine (line : List Char) : List Char × List Char :=
  let r0 := line.dropWhile fun c => isspace c
  let r1 := r0.dropWhile fun c => !(isspace c)
  let r2 := r1.dropWhile fun c => isspace c
  let key := r2.takeWhile fun c => !(isspace c)
  let rest := r2.dropWhile fun c => !(isspace c)
  (key, trimWS rest)

/-- `std::getline` applied repeatedly: the lines of a text, the terminating
newline of each line consumed, a final newline-less fragment kept. -/
def getLinesAux : List Char → List Char → List (List Char)
  | [], acc => if acc = [] then [] else [acc.reverse]
  | c :: cs, acc =>
    if c = Char.ofNat 10 then acc.reverse :: getLinesAux cs []
    else getLinesAux cs (c :: acc)

/-- The `while (std::getline(stream, line))` decomposition of the input. -/
def getLines (s : List Char) : List (List Char) := getLinesAux s []

/-- `processedCode << line << "\n"` accumulated over all emitted lines. -/
def joinNL : List (List Char) → List Char
  | [] => []
  | l :: ls => l ++ Char.ofNat 10 :: joinNL ls

/-- The per-line body of `Preprocessor::process`: `#define` lines update the
substitution map and emit nothing; other lines have every map entry's
occurrences replaced and are emitted.  `none` marks divergence of an inner
replacement loop. -/
def processLines : List (List Char) → SubstMap → Option (List (List Char))
  | [], _ => some []
  | l :: ls, m =>
    if matchAt ("#define".toList) l then
      let kv := parseDefine l
      processLines ls (subInsert m kv.1 kv.2)
    else
      match applySubst m l with
      | none => none
      | some l2 =>
        match processLines ls m with
        | none => none
        | some rest => some (l2 :: rest)

/-- `Preprocessor::process` on the whole source text, starting from the empty
(freshly initialised) substitution map. -/
def process (src : List Char) : Option (List Char) :=
  match processLines (getLines src) [] with
  | none => none
  | some ls => some (joinNL ls)

/-- Number of lines of a text, in the `std::getline` sense. -/
def numLines (s : List Char) : Nat := (getLines s).length

/-- Number of `#define` directive lines among a line list. -/
def countDefines : List (List Char) → Nat
  | [] => 0
  | l :: ls => (if matchAt ("#define".toList) l then 1 else 0) + countDefines ls

-- ------------------------------------------------------------------
-- Parser (class Parser, two-pass analysis)
-- ------------------------------------------------------------------

/-- The function table `std::unordered_map<std::string, FunctionSignature>`,
modelled as an association list with unique keys (insertions only happen when
the key is absent, so list order never matters for lookup). -/
abbrev FunctionTable : Type := List (List Char × FunctionSignature)

/-- `functionTable.find(name)`. -/
def lookupTbl : FunctionTable → List Char → Option FunctionSignature
  | [], _ => none
  | (k, s) :: m, n => if k = n then some s else lookupTbl m n

/-- `if (functionTable.find(name) == end()) functionTable[name] = sig;`. -/
def insertIfAbsent (tbl : FunctionTable) (k : List Char) (sig : FunctionSignature) :
    FunctionTable :=
  match lookupTbl tbl k with
  | none => tbl ++ [(k, sig)]
  | some _ => tbl

/-- One formatted output line.  `Parser::writeIndentedLine` is only ever
called with these seven shapes of text; `indentLevel` is initialised to 0 and
never modified anywhere in the source, so no indentation prefix ever appears
and `render` below recovers the exact emitted text. -/
inductive OutLine where
  | kw (v : List Char)
  | term (v : List Char)
  | callOpen (n : List Char)
  | missingClose
  | arityErr (n : List Char) (defLine : Int) (expected got : Nat)
  | unknownFn (n : List Char) (ln : Int)
  | closeLine
deriving DecidableEq, Repr

/-- The exact text of each emitted line, as built by the C++ concatenations. -/
def render : OutLine → List Char
  | .kw v => v
  | .term v => v ++ [';']
  | .callOpen n => n ++ " (".toList
  | .missingClose => "-- Error: Missing closing parenthesis for function call.".toList
  | .arityErr n dl exp got =>
      "-- Error: Function ".toList ++ [squote] ++ n ++ [squote] ++
      " at line ".toList ++ intChars dl ++ " expects ".toList ++ natChars exp ++
      " arguments, but ".toList ++ natChars got ++ " were provided.".toList
  | .unknownFn n ln =>
      "-- Error: Unknown function ".toList ++ [squote] ++ n ++ [squote] ++
      " at line ".toList ++ intChars ln ++ ".".toList
  | .closeLine => ");".toList

/-- The argument-collection loop shared verbatim by
`Parser::detectFunctionCall` (lines 193–203) and
`Parser::validateFunctionCall` (lines 221–233): starting just after the `(`,
record the text of every `LITERAL`/`IDENTIFIER`/`STRING_LITERAL` token,
skip one `,` after each consumed token, stop at the first `)` (consuming it)
or at end of stream.  Returns (arguments, remaining tokens, closing-paren
consumed?). -/
def collectArgs : List Token → List (List Char) × List Token × Bool
  | [] => ([], [], false)
  | t :: ts =>
    if t.value = [')'] then ([], ts, true)
    else if t.type = END_OF_FILE then ([], t :: ts, false)
    else
      let a : List (List Char) :=
        if t.type = LITERAL ∨ t.type = IDENTIFIER ∨ t.type = STRING_LITERAL
        then [t.value] else []
      match ts with
      | [] => (a, [], false)
      | u :: us =>
        if u.value = [','] then
          let r := collectArgs us
          (a ++ r.1, r.2.1, r.2.2)
        else
          let r := collectArgs (u :: us)
          (a ++ r.1, r.2.1, r.2.2)

/-- `Parser::detectFunctionCall` after the name token has been consumed:
if `(` follows, collect the arguments and register the signature only when
the name is not yet present. -/
def detectFunctionCall (nm : Token) (ts : List Token) (tbl : FunctionTable) :
    List Token × FunctionTable :=
  match ts with
  | [] => ([], tbl)
  | u :: rest =>
    if u.value = ['('] then
      let c := collectArgs rest
      (c.2.1, insertIfAbsent tbl nm.value ⟨nm.value, c.1, nm.line⟩)
    else (u :: rest, tbl)

/-- `Parser::validateFunctionCall` after the name token has been consumed:
emit `name (`; if `(` follows, re-collect the arguments, diagnose a missing
`)`, then diagnose against the table (unknown name, or argument-count
mismatch); finally emit `);` unconditionally. -/
def validateFunctionCall (nm : Token) (ts : List Token) (tbl : FunctionTable) :
    List Token × List OutLine :=
  match ts with
  | [] => ([], [OutLine.callOpen nm.value, OutLine.closeLine])
  | u :: rest =>
    if u.value = ['('] then
      let c := collectArgs rest
      (c.2.1,
        OutLine.callOpen nm.value ::
        ((if c.2.2 then [] else [OutLine.missingClose]) ++
         (match lookupTbl tbl nm.value with
          | some sig =>
            if sig.argumentTypes.length ≠ c.1.length then
              [OutLine.arityErr nm.value sig.line sig.argumentTypes.length c.1.length]
            else []
          | none => [OutLine.unknownFn nm.value nm.line]) ++
         [OutLine.closeLine]))
    else (u :: rest, [OutLine.callOpen nm.value, OutLine.closeLine])

/-- `Parser::parseStatement`: the statement dispatch, shared by both passes.
Note that the keyword and fall-through branches emit their lines during the
first pass as well — faithful to the source, where `writeIndentedLine` is not
guarded by `isFirstPass`. -/
def parseStatement (isFirstPass : Bool) (ts : List Token) (tbl : FunctionTable) :
    List Token × FunctionTable × List OutLine :=
  match ts with
  | [] => ([], tbl, [])
  | t :: rest =>
    if t.type = IDENTIFIER ∧ t.value ≠ ['('] then
      if isFirstPass then
        let d := detectFunctionCall t rest tbl
        (d.1, d.2, [])
      else
        let v := validateFunctionCall t rest tbl
        (v.1, tbl, v.2)
    else if t.type = KEYWORD then (rest, tbl, [OutLine.kw t.value])
    else (rest, tbl, [OutLine.term t.value])

/-- The `while (peek().type != END_OF_FILE) parseStatement(pass);` loop of
`firstPass`/`secondPass`.  Every `parseStatement` call consumes at least one
token, so fuel `length + 1` always reaches the `END_OF_FILE` token (or the end
of the list, where `peek()` returns the END_OF_FILE sentinel). -/
def passRun : Nat → Bool → List Token → FunctionTable → FunctionTable × List OutLine
  | 0, _, _, tbl => (tbl, [])
  | f + 1, isFirstPass, ts, tbl =>
    match ts with
    | [] => (tbl, [])
    | t :: _ =>
      if t.type = END_OF_FILE then (tbl, [])
      else
        let s := parseStatement isFirstPass ts tbl
        let r := passRun f isFirstPass s.1 s.2.1
        (r.1, s.2.2 ++ r.2)

/-- `Parser::firstPass()` on a fresh parser: the resulting function table and
the lines it (unintentionally) writes into the shared emission buffer. -/
def firstPass (ts : List Token) : FunctionTable × List OutLine :=
  passRun (ts.length + 1) true ts []

/-- The lines written by the second-pass scan itself, given the table. -/
def secondPassLines (ts : List Token) (tbl : FunctionTable) : List OutLine :=
  (passRun (ts.length + 1) false ts tbl).2

/-- `Parser::secondPass()`'s return value `formattedCode.str()`: the shared
emission buffer, which still holds everything pass 1 wrote, followed by the
second pass's own lines. -/
def secondPassOutput (ts : List Token) : List OutLine :=
  (firstPass ts).2 ++ secondPassLines ts (firstPass ts).1

/-- The whole pipeline of `main` (file I/O aside): preprocess, tokenize,
first pass, second pass; the result is the list of output lines.  `none`
propagates divergence of the preprocessor. -/
def pipeline (src : List Char) : Option (List (List Char)) :=
  match process src with
  | none => none
  | some expanded => some ((secondPassOutput (tokenize expanded)).map render)

-- ------------------------------------------------------------------
-- Claim theorems and supporting lemmas
-- ------------------------------------------------------------------

/-- The empty-key replacement loop never terminates: `find("") = pos` always
succeeds, the replacement rewrites nothing and the position advances by the
empty value's length, zero — so the state repeats and no amount of fuel
finishes the loop. -/
theorem replaceAllAux_empty_key :
    ∀ (f : Nat) (line : List Char) (pos : Nat), pos ≤ line.length →
      replaceAllAux f [] [] line pos = none := by
  intro f
  induction f with
  | zero => intro line pos _; rfl
  | succ f ih =>
    intro line pos h
    have hfind : strFind line [] pos = some pos := by
      unfold strFind
      have h2 : line.length + 1 - pos = (line.length - pos) + 1 := by omega
      rw [h2]
      unfold strFindAux
      simp only [List.length_nil, Nat.add_zero, matchAt, if_true]
      have h3 : ¬ (line.length < pos) := by omega
      simp [h3]
    unfold replaceAllAux
    rw [hfind]
    simp only [List.length_nil, Nat.add_zero, List.append_nil]
    rw [List.take_append_drop]
    exact ih line pos h

/-- C1 [code_bug evidence]: pass 1 is not output-free: already for the single
keyword input `select`, `Parser::firstPass` writes the keyword line into the
shared emission buffer, and the text returned by `Parser::secondPass`
therefore contains the duplicated `select` line contributed during pass 1. -/
theorem c1_firstPass_pollutes_output :
    (firstPass (tokenize ("select\n".toList))).2 = [OutLine.kw ("select".toList)] ∧
    pipeline ("select".toList) = some ["select".toList, "select".toList] := by
  constructor
  · decide
  · decide

/-- C2 [code_bug evidence]: on `select a(1,"x") from t` the tokenizer and the
pass-1 call table behave exactly as the claim states, but the final output has
an extra leading `select` line written during pass 1, so the output is not
"the keyword line, then `a (` ... and nothing else". -/
theorem c2_end_to_end :
    tokenize ("select a(1,\"x\") from t\n".toList) =
      [⟨TokenType.KEYWORD, "select".toList, 1⟩,
       ⟨TokenType.IDENTIFIER, "a".toList, 1⟩,
       ⟨TokenType.SYMBOL, "(".toList, 1⟩,
       ⟨TokenType.LITERAL, "1".toList, 1⟩,
       ⟨TokenType.SYMBOL, ",".toList, 1⟩,
       ⟨TokenType.STRING_LITERAL, "x".toList, 1⟩,
       ⟨TokenType.SYMBOL, ")".toList, 1⟩,
       ⟨TokenType.IDENTIFIER, "from".toList, 1⟩,
       ⟨TokenType.IDENTIFIER, "t".toList, 1⟩,
       ⟨TokenType.END_OF_FILE, [], 2⟩] ∧
    lookupTbl (firstPass (tokenize ("select a(1,\"x\") from t\n".toList))).1 ("a".toList) =
      some ⟨"a".toList, ["1".toList, "x".toList], 1⟩ ∧
    pipeline ("select a(1,\"x\") from t".toList) =
      some ["select".toList, "select".toList, "a (".toList, ");".toList,
            "from (".toList, ");".toList, "t (".toList, ");".toList] := by
  refine ⟨by decide, by decide, by decide⟩

/-- C3 [code_bug evidence]: a bare `#define` line installs the empty macro
name, and the replacement loop applied to any subsequent line then diverges —
`replaceAllAux` fails for every fuel, and the preprocessor never completes on
`#define` followed by `x` (modelled as the `none` result). -/
theorem c3_define_without_name_diverges :
    (∀ (f : Nat) (line : List Char) (pos : Nat), pos ≤ line.length →
      replaceAllAux f [] [] line pos = none) ∧
    process ("#define\nx".toList) = none := by
  exact ⟨replaceAllAux_empty_key, by decide⟩

theorem c3_define_without_name_diverges_w :
    replaceAllAux 5 [] [] ("x".toList) 0 = none :=
  c3_define_without_name_diverges.1 5 ("x".toList) 0 (by decide)

/-- C8 [confirmed]: for input `f(1,2` the whole pipeline emits exactly the
call-open line, the single missing-closing-parenthesis diagnostic, and the
closing line — and nothing else. -/
theorem c8_missing_close_paren :
    pipeline ("f(1,2".toList) =
      some ["f (".toList,
            "-- Error: Missing closing parenthesis for function call.".toList,
            ");".toList] := by
  decide

-- Supporting lemmas for C5: line counting through the preprocessor.

theorem getLinesAux_no_newline :
    ∀ (cs acc : List Char), (∀ c ∈ acc, c ≠ Char.ofNat 10) →
      ∀ l ∈ getLinesAux cs acc, ∀ c ∈ l, c ≠ Char.ofNat 10 := by
  intro cs
  induction cs with
  | nil =>
    intro acc hacc l hl
    unfold getLinesAux at hl
    by_cases h : acc = []
    · simp [h] at hl
    · simp [h] at hl
      subst hl
      intro c hc
      exact hacc c (List.mem_reverse.mp hc)
  | cons c cs ih =>
    intro acc hacc l hl
    unfold getLinesAux at hl
    by_cases h : c = Char.ofNat 10
    · simp [h] at hl
      rcases hl with hl | hl
      · subst hl
        intro d hd
        exact hacc d (List.mem_reverse.mp hd)
      · exact ih [] (by simp) l hl
    · simp [h] at hl
      refine ih (c :: acc) ?_ l hl
      intro d hd
      rcases List.mem_cons.mp hd with hd | hd
      · subst hd; exact h
      · exact hacc d hd

theorem getLines_no_newline (s : List Char) :
    ∀ l ∈ getLines s, ∀ c ∈ l, c ≠ Char.ofNat 10 :=
  getLinesAux_no_newline s [] (by simp)

theorem replaceAllAux_mem :
    ∀ (f : Nat) (key v line : List Char) (pos : Nat) (r : List Char),
      replaceAllAux f key v line pos = some r →
      ∀ c ∈ r, c ∈ line ∨ c ∈ v := by
  intro f
  induction f with
  | zero => intro key v line pos r h; exact absurd h (by simp [replaceAllAux])
  | succ f ih =>
    intro key v line pos r h
    unfold replaceAllAux at h
    cases hfind : strFind line key pos with
    | none =>
      rw [hfind] at h
      simp at h
      subst h
      intro c hc
      exact Or.inl hc
    | some p =>
      rw [hfind] at h
      intro c hc
      rcases ih key v _ _ r h c hc with h2 | h2
      · rcases List.mem_append.mp h2 with h3 | h3
        · rcases List.mem_append.mp h3 with h4 | h4
          · exact Or.inl (List.take_subset _ _ h4)
          · exact Or.inr h4
        · exact Or.inl (List.drop_subset _ _ h3)
      · exact Or.inr h2

theorem applySubst_no_newline :
    ∀ (m : SubstMap) (line r : List Char),
      (∀ kv ∈ m, ∀ c ∈ kv.2, c ≠ Char.ofNat 10) →
      (∀ c ∈ line, c ≠ Char.ofNat 10) →
      applySubst m line = some r →
      ∀ c ∈ r, c ≠ Char.ofNat 10 := by
  intro m
  induction m with
  | nil =>
    intro line r _ hline h
    simp [applySubst] at h
    subst h; exact hline
  | cons kv m ih =>
    intro line r hm hline h
    unfold applySubst at h
    cases hrep : replaceAll kv.1 kv.2 line with
    | none => rw [hrep] at h; simp at h
    | some l2 =>
      rw [hrep] at h
      refine ih l2 r (fun kv2 h2 => hm kv2 (List.mem_cons_of_mem _ h2)) ?_ h
      intro c hc
      rcases replaceAllAux_mem _ _ _ _ _ _ hrep c hc with h2 | h2
      · exact hline c h2
      · exact hm kv (List.mem_cons_self _ _) c h2

theorem trimWS_subset (s : List Char) : ∀ c ∈ trimWS s, c ∈ s := by
  intro c hc
  unfold trimWS at hc
  rw [List.mem_reverse] at hc
  have h1 := (List.dropWhile_sublist (l := ((s.dropWhile fun c => isspace c).reverse))
    (p := fun c => isspace c)).subset hc
  rw [List.mem_reverse] at h1
  exact (List.dropWhile_sublist (p := fun c => isspace c)).subset h1

theorem parseDefine_val_subset (l : List Char) : ∀ c ∈ (parseDefine l).2, c ∈ l := by
  intro c hc
  unfold parseDefine at hc
  simp only at hc
  have h1 := trimWS_subset _ c hc
  have h2 := (List.dropWhile_sublist (p := fun c => !(isspace c))).subset h1
  have h3 := (List.dropWhile_sublist (p := fun c => isspace c)).subset h2
  have h4 := (List.dropWhile_sublist (p := fun c => !(isspace c))).subset h3
  exact (List.dropWhile_sublist (p := fun c => isspace c)).subset h4

theorem subInsert_no_newline :
    ∀ (m : SubstMap) (k v : List Char),
      (∀ kv ∈ m, ∀ c ∈ kv.2, c ≠ Char.ofNat 10) →
      (∀ c ∈ v, c ≠ Char.ofNat 10) →
      ∀ kv ∈ subInsert m k v, ∀ c ∈ kv.2, c ≠ Char.ofNat 10 := by
  intro m
  induction m with
  | nil =>
    intro k v _ hv kv hkv
    simp [subInsert] at hkv
    subst hkv; exact hv
  | cons kv0 m ih =>
    intro k v hm hv kv hkv
    unfold subInsert at hkv
    by_cases h : kv0.1 = k
    · simp [h] at hkv
      rcases hkv with hkv | hkv
      · subst hkv; exact hv
      · exact hm kv (List.mem_cons_of_mem _ hkv)
    · simp [h] at hkv
      rcases hkv with hkv | hkv
      · subst hkv; exact hm _ (List.mem_cons_self _ _)
      · exact ih k v (fun kv2 h2 => hm kv2 (List.mem_cons_of_mem _ h2)) hv kv hkv

theorem processLines_count :
    ∀ (ls : List (List Char)) (m : SubstMap) (out : List (List Char)),
      processLines ls m = some out →
      out.length + countDefines ls = ls.length := by
  intro ls
  induction ls with
  | nil =>
    intro m out h
    simp [processLines] at h
    subst h; simp [countDefines]
  | cons l ls ih =>
    intro m out h
    unfold processLines at h
    unfold countDefines
    by_cases hdef : matchAt ("#define".toList) l = true
    · rw [if_pos hdef] at h
      rw [if_pos hdef]
      have := ih _ _ h
      simp only [List.length_cons]
      omega
    · rw [if_neg hdef] at h
      rw [if_neg hdef]
      cases hsub : applySubst m l with
      | none => rw [hsub] at h; simp at h
      | some l2 =>
        rw [hsub] at h
        cases hrest : processLines ls m with
        | none => rw [hrest] at h; simp at h
        | some rest =>
          rw [hrest] at h
          simp at h
          subst h
          have := ih _ _ hrest
          simp only [List.length_cons]
          omega

theorem processLines_no_newline :
    ∀ (ls : List (List Char)) (m : SubstMap) (out : List (List Char)),
      (∀ l ∈ ls, ∀ c ∈ l, c ≠ Char.ofNat 10) →
      (∀ kv ∈ m, ∀ c ∈ kv.2, c ≠ Char.ofNat 10) →
      processLines ls m = some out →
      ∀ l ∈ out, ∀ c ∈ l, c ≠ Char.ofNat 10 := by
  intro ls
  induction ls with
  | nil =>
    intro m out _ _ h
    simp [processLines] at h
    subst h; simp
  | cons l ls ih =>
    intro m out hls hm h
    unfold processLines at h
    by_cases hdef : matchAt ("#define".toList) l = true
    · rw [if_pos hdef] at h
      refine ih _ _ (fun l2 h2 => hls l2 (List.mem_cons_of_mem _ h2)) ?_ h
      refine subInsert_no_newline m _ _ hm ?_
      intro c hc
      exact hls l (List.mem_cons_self _ _) c (parseDefine_val_subset _ c hc)
    · rw [if_neg hdef] at h
      cases hsub : applySubst m l with
      | none => rw [hsub] at h; simp at h
      | some l2 =>
        rw [hsub] at h
        cases hrest : processLines ls m with
        | none => rw [hrest] at h; simp at h
        | some rest =>
          rw [hrest] at h
          simp at h
          subst h
          intro l3 hl3
          rcases List.mem_cons.mp hl3 with hl3 | hl3
          · subst hl3
            exact applySubst_no_newline m l l3 hm (hls l (List.mem_cons_self _ _)) hsub
          · exact ih _ _ (fun l4 h4 => hls l4 (List.mem_cons_of_mem _ h4)) hm hrest l3 hl3

theorem getLinesAux_nl (rest acc : List Char) :
    getLinesAux (Char.ofNat 10 :: rest) acc = acc.reverse :: getLinesAux rest [] := by
  simp [getLinesAux]

theorem getLinesAux_other {c : Char} (h : c ≠ Char.ofNat 10) (cs acc : List Char) :
    getLinesAux (c :: cs) acc = getLinesAux cs (c :: acc) := by
  simp [getLinesAux, h]

theorem getLinesAux_append_newline :
    ∀ (l rest acc : List Char), (∀ c ∈ l, c ≠ Char.ofNat 10) →
      getLinesAux (l ++ Char.ofNat 10 :: rest) acc =
        (acc.reverse ++ l) :: getLinesAux rest [] := by
  intro l
  induction l with
  | nil =>
    intro rest acc _
    simp only [List.nil_append, List.append_nil]
    exact getLinesAux_nl rest acc
  | cons c l ih =>
    intro rest acc hl
    have hc : c ≠ Char.ofNat 10 := hl c (List.mem_cons_self _ _)
    rw [List.cons_append, getLinesAux_other hc,
      ih rest (c :: acc) (fun d hd => hl d (List.mem_cons_of_mem _ hd))]
    simp

theorem getLines_joinNL :
    ∀ (ls : List (List Char)), (∀ l ∈ ls, ∀ c ∈ l, c ≠ Char.ofNat 10) →
      getLines (joinNL ls) = ls := by
  intro ls
  induction ls with
  | nil => intro _; rfl
  | cons l ls ih =>
    intro hls
    show getLinesAux (l ++ Char.ofNat 10 :: joinNL ls) [] = l :: ls
    rw [getLinesAux_append_newline l (joinNL ls) [] (hls l (List.mem_cons_self _ _))]
    simp only [List.reverse_nil, List.nil_append]
    have := ih (fun l2 h2 => hls l2 (List.mem_cons_of_mem _ h2))
    unfold getLines at this
    rw [this]

/-- C5 [amended]: whenever the macro expander terminates, the expanded text
has exactly as many lines as the input text minus the number of `#define`
directive lines (which are consumed and contribute no output line). -/
theorem c5_line_count (src out : List Char) (h : process src = some out) :
    numLines out + countDefines (getLines src) = numLines src := by
  unfold process at h
  cases hpl : processLines (getLines src) [] with
  | none => rw [hpl] at h; simp at h
  | some ls =>
    rw [hpl] at h
    simp at h
    subst h
    have hnl := processLines_no_newline (getLines src) [] ls
      (getLines_no_newline src) (by simp) hpl
    unfold numLines
    rw [getLines_joinNL ls hnl]
    exact processLines_count (getLines src) [] ls hpl

theorem c5_line_count_w :
    numLines ("x\n".toList) + countDefines (getLines ("#define A B\nx".toList)) =
      numLines ("#define A B\nx".toList) :=
  c5_line_count ("#define A B\nx".toList) ("x\n".toList) (by decide)

/-- C5 [counterexample]: the input `#define A B\nx` has two lines, but the
expanded output `x\n` has only one — the `#define` line is consumed, so the
expanded text does not keep the input's line count. -/
theorem c5_cex :
    process ("#define A B\nx".toList) = some ("x\n".toList) ∧
    numLines ("x\n".toList) = 1 ∧
    numLines ("#define A B\nx".toList) = 2 := by
  refine ⟨by decide, by decide, by decide⟩

-- Supporting lemmas for C9: the tokenizer.

/-- Concatenation of the `text` fields of a token sequence, in order. -/
def concatTexts : List Token → List Char
  | [] => []
  | t :: ts => t.value ++ concatTexts ts

theorem tokAux_ws {c : Char} (h : isspace c = true) (f : Nat) (cs : List Char) (ln : Int) :
    tokenizeAux (f + 1) (c :: cs) ln =
      tokenizeAux f cs (if c = Char.ofNat 10 then ln + 1 else ln) := by
  simp [tokenizeAux, h]

theorem tokAux_word {c : Char} (h1 : isspace c = false) (h2 : (isalpha c || c = '_') = true)
    (f : Nat) (cs : List Char) (ln : Int) :
    tokenizeAux (f + 1) (c :: cs) ln =
      mkWordTok (c :: (spanChars isIdentChar cs).1) ln ::
        tokenizeAux f (spanChars isIdentChar cs).2 ln := by
  simp [tokenizeAux, h1, h2]

theorem tokAux_num {c : Char} (h1 : isspace c = false) (h2 : (isalpha c || c = '_') = false)
    (h3 : isdigit c = true) (f : Nat) (cs : List Char) (ln : Int) :
    tokenizeAux (f + 1) (c :: cs) ln =
      ⟨LITERAL, c :: (spanChars isdigit cs).1, ln⟩ ::
        tokenizeAux f (spanChars isdigit cs).2 ln := by
  simp [tokenizeAux, h1, h2, h3]

theorem tokAux_str {c : Char} (h1 : isspace c = false) (h2 : (isalpha c || c = '_') = false)
    (h3 : isdigit c = false) (h4 : c = dquote) (f : Nat) (cs : List Char) (ln : Int) :
    tokenizeAux (f + 1) (c :: cs) ln =
      ⟨STRING_LITERAL, (strLitAux cs).1, ln + countNL (strLitAux cs).1⟩ ::
        tokenizeAux f (strLitAux cs).2 (ln + countNL (strLitAux cs).1) := by
  subst h4
  simp [tokenizeAux, h1, h2, h3]

theorem tokAux_sym {c : Char} (h1 : isspace c = false) (h2 : (isalpha c || c = '_') = false)
    (h3 : isdigit c = false) (h4 : ¬ (c = dquote)) (h5 : ispunct c = true)
    (f : Nat) (cs : List Char) (ln : Int) :
    tokenizeAux (f + 1) (c :: cs) ln = ⟨SYMBOL, [c], ln⟩ :: tokenizeAux f cs ln := by
  simp [tokenizeAux, h1, h2, h3, h4, h5]

theorem tokAux_other {c : Char} (h1 : isspace c = false) (h2 : (isalpha c || c = '_') = false)
    (h3 : isdigit c = false) (h4 : ¬ (c = dquote)) (h5 : ispunct c = false)
    (f : Nat) (cs : List Char) (ln : Int) :
    tokenizeAux (f + 1) (c :: cs) ln = tokenizeAux f cs ln := by
  simp [tokenizeAux, h1, h2, h3, h4, h5]

theorem countNL_append (a b : List Char) : countNL (a ++ b) = countNL a + countNL b := by
  induction a with
  | nil => simp [countNL]
  | cons c a ih =>
    simp only [List.cons_append, countNL, List.append_eq]
    rw [ih]
    omega

theorem countNL_zero (l : List Char) (h : ∀ c ∈ l, c ≠ Char.ofNat 10) : countNL l = 0 := by
  induction l with
  | nil => rfl
  | cons c l ih =>
    simp only [countNL]
    rw [if_neg (h c (List.mem_cons_self _ _)), ih (fun d hd => h d (List.mem_cons_of_mem _ hd))]

theorem spanChars_decomp (p : Char → Bool) (cs : List Char) :
    (spanChars p cs).1 ++ (spanChars p cs).2 = cs := by
  induction cs with
  | nil => rfl
  | cons c cs ih =>
    unfold spanChars
    by_cases h : p c = true
    · simp only [h, if_true, List.cons_append]
      rw [ih]
    · simp [h]

theorem spanChars_mem (p : Char → Bool) (cs : List Char) :
    ∀ c ∈ (spanChars p cs).1, p c = true := by
  induction cs with
  | nil => simp [spanChars]
  | cons c cs ih =>
    unfold spanChars
    by_cases h : p c = true
    · simp only [h, if_true]
      intro d hd
      rcases List.mem_cons.mp hd with hd | hd
      · subst hd; exact h
      · exact ih d hd
    · simp [h]

theorem spanChars_len (p : Char → Bool) (cs : List Char) :
    (spanChars p cs).2.length ≤ cs.length := by
  have := congrArg List.length (spanChars_decomp p cs)
  simp only [List.length_append] at this
  omega

theorem strLitAux_cases (cs : List Char) :
    cs = (strLitAux cs).1 ++ dquote :: (strLitAux cs).2 ∨
    (cs = (strLitAux cs).1 ∧ (strLitAux cs).2 = []) := by
  induction cs with
  | nil => exact Or.inr ⟨rfl, rfl⟩
  | cons c cs ih =>
    unfold strLitAux
    by_cases h : c = dquote
    · simp only [h, if_true]
      exact Or.inl (by simp)
    · simp only [h, if_false]
      rcases ih with ih | ⟨ih1, ih2⟩
      · exact Or.inl (by simp only [List.cons_append]; rw [← ih])
      · exact Or.inr ⟨by rw [← ih1], ih2⟩

theorem strLitAux_len (cs : List Char) : (strLitAux cs).2.length ≤ cs.length := by
  rcases strLitAux_cases cs with h | ⟨_, h2⟩
  · have := congrArg List.length h
    simp only [List.length_append, List.length_cons] at this
    omega
  · rw [h2]; simp

theorem mkWordTok_value (v : List Char) (ln : Int) : (mkWordTok v ln).value = v := by
  unfold mkWordTok
  split <;> rfl

theorem mkWordTok_type (v : List Char) (ln : Int) : (mkWordTok v ln).type ≠ END_OF_FILE := by
  unfold mkWordTok
  split <;> simp

theorem isIdentChar_ne_nl {c : Char} (h : isIdentChar c = true) : c ≠ Char.ofNat 10 := by
  intro he; rw [he] at h; exact absurd h (by decide)

theorem isdigit_ne_nl {c : Char} (h : isdigit c = true) : c ≠ Char.ofNat 10 := by
  intro he; rw [he] at h; exact absurd h (by decide)


theorem keepchar_space {c : Char} (h : isspace c = true) :
    (isalnum c || (ispunct c && !(c = dquote))) = false := by
  simp only [isspace, Bool.or_eq_true, decide_eq_true_eq] at h
  rcases h with ((((h | h) | h) | h) | h) | h <;> subst h <;> decide

theorem tokenizeAux_eof :
    ∀ (f : Nat) (cs : List Char) (ln : Int), cs.length < f →
      ∃ body, tokenizeAux f cs ln = body ++ [⟨END_OF_FILE, [], ln + countNL cs⟩] ∧
        ∀ t ∈ body, t.type ≠ END_OF_FILE := by
  intro f
  induction f with
  | zero => intro cs ln h; exact absurd h (Nat.not_lt_zero _)
  | succ f ih =>
    intro cs ln h
    cases cs with
    | nil =>
      refine ⟨[], ?_, by simp⟩
      simp [tokenizeAux, countNL]
    | cons c cs =>
      have hlen : cs.length < f := by
        simp only [List.length_cons] at h; omega
      cases h1 : isspace c with
      | true =>
        obtain ⟨body, hb, hbt⟩ := ih cs (if c = Char.ofNat 10 then ln + 1 else ln) hlen
        refine ⟨body, ?_, hbt⟩
        rw [tokAux_ws h1, hb]
        have hline : (if c = Char.ofNat 10 then ln + 1 else ln) + (countNL cs : Int) =
            ln + (countNL (c :: cs) : Int) := by
          simp only [countNL]
          by_cases hc : c = Char.ofNat 10 <;> simp only [hc, if_true, if_false] <;>
            push_cast <;> ring
        rw [hline]
      | false =>
        cases h2 : (isalpha c || c = '_') with
        | true =>
          have hlen2 : (spanChars isIdentChar cs).2.length < f :=
            Nat.lt_of_le_of_lt (spanChars_len _ _) hlen
          obtain ⟨body, hb, hbt⟩ := ih (spanChars isIdentChar cs).2 ln hlen2
          refine ⟨mkWordTok (c :: (spanChars isIdentChar cs).1) ln :: body, ?_, ?_⟩
          · rw [tokAux_word h1 h2, hb]
            have hcne : c ≠ Char.ofNat 10 := by
              intro he; rw [he] at h2; exact absurd h2 (by decide)
            have hline : ln + (countNL (spanChars isIdentChar cs).2 : Int) =
                ln + (countNL (c :: cs) : Int) := by
              have hd := congrArg countNL (spanChars_decomp isIdentChar cs)
              rw [countNL_append] at hd
              have hv0 : countNL (spanChars isIdentChar cs).1 = 0 :=
                countNL_zero _ (fun d hd2 => isIdentChar_ne_nl (spanChars_mem _ _ d hd2))
              rw [hv0] at hd
              simp only [countNL]
              rw [if_neg hcne]
              push_cast
              omega
            rw [hline]
            simp
          · intro t ht
            rcases List.mem_cons.mp ht with ht | ht
            · subst ht; exact mkWordTok_type _ _
            · exact hbt t ht
        | false =>
          cases h3 : isdigit c with
          | true =>
            have hlen2 : (spanChars isdigit cs).2.length < f :=
              Nat.lt_of_le_of_lt (spanChars_len _ _) hlen
            obtain ⟨body, hb, hbt⟩ := ih (spanChars isdigit cs).2 ln hlen2
            refine ⟨⟨LITERAL, c :: (spanChars isdigit cs).1, ln⟩ :: body, ?_, ?_⟩
            · rw [tokAux_num h1 h2 h3, hb]
              have hcne : c ≠ Char.ofNat 10 := isdigit_ne_nl h3
              have hline : ln + (countNL (spanChars isdigit cs).2 : Int) =
                  ln + (countNL (c :: cs) : Int) := by
                have hd := congrArg countNL (spanChars_decomp isdigit cs)
                rw [countNL_append] at hd
                have hv0 : countNL (spanChars isdigit cs).1 = 0 :=
                  countNL_zero _ (fun d hd2 => isdigit_ne_nl (spanChars_mem _ _ d hd2))
                rw [hv0] at hd
                simp only [countNL]
                rw [if_neg hcne]
                push_cast
                omega
              rw [hline]
              simp
            · intro t ht
              rcases List.mem_cons.mp ht with ht | ht
              · subst ht; simp
              · exact hbt t ht
          | false =>
            by_cases h4 : c = dquote
            · have hlen2 : (strLitAux cs).2.length < f :=
                Nat.lt_of_le_of_lt (strLitAux_len _) hlen
              obtain ⟨body, hb, hbt⟩ :=
                ih (strLitAux cs).2 (ln + countNL (strLitAux cs).1) hlen2
              refine ⟨⟨STRING_LITERAL, (strLitAux cs).1,
                ln + countNL (strLitAux cs).1⟩ :: body, ?_, ?_⟩
              · rw [tokAux_str h1 h2 h3 h4, hb]
                have hcne : c ≠ Char.ofNat 10 := by rw [h4]; decide
                have hline : (ln + (countNL (strLitAux cs).1 : Int)) +
                    (countNL (strLitAux cs).2 : Int) = ln + (countNL (c :: cs) : Int) := by
                  simp only [countNL]
                  rw [if_neg hcne]
                  rcases strLitAux_cases cs with hsd | ⟨hsd, hrest⟩
                  · have hd := congrArg countNL hsd
                    rw [countNL_append] at hd
                    simp only [countNL] at hd
                    rw [if_neg (show ¬ (dquote = Char.ofNat 10) from by decide)] at hd
                    push_cast
                    omega
                  · have hd := congrArg countNL hsd
                    rw [hrest]
                    simp only [countNL]
                    push_cast
                    omega
                rw [hline]
                simp
              · intro t ht
                rcases List.mem_cons.mp ht with ht | ht
                · subst ht; simp
                · exact hbt t ht
            · cases h5 : ispunct c with
              | true =>
                obtain ⟨body, hb, hbt⟩ := ih cs ln hlen
                refine ⟨⟨SYMBOL, [c], ln⟩ :: body, ?_, ?_⟩
                · rw [tokAux_sym h1 h2 h3 h4 h5, hb]
                  have hcne : c ≠ Char.ofNat 10 := by
                    intro he; rw [he] at h5; exact absurd h5 (by decide)
                  have hline : ln + (countNL cs : Int) = ln + (countNL (c :: cs) : Int) := by
                    simp only [countNL]
                    rw [if_neg hcne]
                    push_cast
                    ring
                  rw [hline]
                  simp
                · intro t ht
                  rcases List.mem_cons.mp ht with ht | ht
                  · subst ht; simp
                  · exact hbt t ht
              | false =>
                obtain ⟨body, hb, hbt⟩ := ih cs ln hlen
                refine ⟨body, ?_, hbt⟩
                rw [tokAux_other h1 h2 h3 h4 h5, hb]
                have hcne : c ≠ Char.ofNat 10 := by
                  intro he; rw [he] at h1; exact absurd h1 (by decide)
                have hline : ln + (countNL cs : Int) = ln + (countNL (c :: cs) : Int) := by
                  simp only [countNL]
                  rw [if_neg hcne]
                  push_cast
                  ring
                rw [hline]

theorem tokenizeAux_coverage :
    ∀ (f : Nat) (cs : List Char) (ln : Int), cs.length < f →
      List.Sublist (cs.filter fun c => isalnum c || (ispunct c && !(c = dquote)))
        (concatTexts (tokenizeAux f cs ln)) := by
  intro f
  induction f with
  | zero => intro cs ln h; exact absurd h (Nat.not_lt_zero _)
  | succ f ih =>
    intro cs ln h
    cases cs with
    | nil => simp [tokenizeAux, concatTexts]
    | cons c cs =>
      have hlen : cs.length < f := by
        simp only [List.length_cons] at h; omega
      cases h1 : isspace c with
      | true =>
        rw [tokAux_ws h1, List.filter_cons, keepchar_space h1]
        simp only [Bool.false_eq_true, if_false]
        exact ih cs _ hlen
      | false =>
        cases h2 : (isalpha c || c = '_') with
        | true =>
          have hlen2 : (spanChars isIdentChar cs).2.length < f :=
            Nat.lt_of_le_of_lt (spanChars_len _ _) hlen
          rw [tokAux_word h1 h2]
          simp only [concatTexts, mkWordTok_value]
          have hsplit : c :: cs =
              (c :: (spanChars isIdentChar cs).1) ++ (spanChars isIdentChar cs).2 := by
            rw [List.cons_append, spanChars_decomp]
          rw [hsplit, List.filter_append]
          exact List.Sublist.append (List.filter_sublist _) (ih _ ln hlen2)
        | false =>
          cases h3 : isdigit c with
          | true =>
            have hlen2 : (spanChars isdigit cs).2.length < f :=
              Nat.lt_of_le_of_lt (spanChars_len _ _) hlen
            rw [tokAux_num h1 h2 h3]
            simp only [concatTexts]
            have hsplit : c :: cs =
                (c :: (spanChars isdigit cs).1) ++ (spanChars isdigit cs).2 := by
              rw [List.cons_append, spanChars_decomp]
            rw [hsplit, List.filter_append]
            exact List.Sublist.append (List.filter_sublist _) (ih _ ln hlen2)
          | false =>
            by_cases h4 : c = dquote
            · have hlen2 : (strLitAux cs).2.length < f :=
                Nat.lt_of_le_of_lt (strLitAux_len _) hlen
              rw [tokAux_str h1 h2 h3 h4]
              simp only [concatTexts]
              have hkc : (isalnum c || (ispunct c && !(c = dquote))) = false := by
                rw [h4]; decide
              rw [List.filter_cons, hkc]
              simp only [Bool.false_eq_true, if_false]
              rcases strLitAux_cases cs with hsd | ⟨hsd, hrest⟩
              · conv_lhs => rw [hsd]
                rw [List.filter_append, List.filter_cons]
                rw [show (isalnum dquote || (ispunct dquote && !(dquote = dquote))) = false
                  from by decide]
                simp only [Bool.false_eq_true, if_false]
                exact List.Sublist.append (List.filter_sublist _) (ih _ _ hlen2)
              · conv_lhs => rw [hsd]
                exact (List.filter_sublist _).trans (List.sublist_append_left _ _)
            · cases h5 : ispunct c with
              | true =>
                rw [tokAux_sym h1 h2 h3 h4 h5]
                simp only [concatTexts]
                rw [List.filter_cons]
                by_cases hk : (isalnum c || (ispunct c && !(c = dquote))) = true
                · rw [hk]
                  simp only [if_true]
                  exact (ih cs ln hlen).cons₂ c
                · simp only [Bool.not_eq_true] at hk
                  rw [hk]
                  simp only [Bool.false_eq_true, if_false]
                  exact (ih cs ln hlen).cons c
              | false =>
                rw [tokAux_other h1 h2 h3 h4 h5]
                have hkc : (isalnum c || (ispunct c && !(c = dquote))) = false := by
                  simp only [Bool.or_eq_false_iff] at h2 ⊢
                  simp only [isalnum, Bool.or_eq_false_iff]
                  exact ⟨⟨h2.1, h3⟩, by simp [h5]⟩
                rw [List.filter_cons, hkc]
                simp only [Bool.false_eq_true, if_false]
                exact ih cs ln hlen

/-- C9 [counterexample]: on the input `"x"` the two double-quote delimiters —
punctuation characters of the input — are discarded by the tokenizer, so the
concatenated token texts do not contain every punctuation character of the
input (with only whitespace dropped, they would). -/
theorem c9_cex :
    ¬ List.Sublist (("\"x\"".toList).filter fun c => isalnum c || ispunct c)
      (concatTexts (tokenize ("\"x\"".toList))) := by
  intro hs
  have h1 := hs.length_le
  have h2 : (("\"x\"".toList).filter fun c => isalnum c || ispunct c).length = 3 := by decide
  have h3 : (concatTexts (tokenize ("\"x\"".toList))).length = 1 := by decide
  omega

/-- C9 [amended]: for every input, the tokenizer returns a finite sequence
terminated by exactly one `END_OF_FILE` token whose line number is the final
line reached (1 plus the number of newlines consumed), and concatenating the
`text` fields of all tokens in order reproduces, in order, every alphanumeric
character and every punctuation character of the input other than the
string-literal double-quote delimiters; whitespace (outside string literals)
and the double quotes are dropped. -/
theorem c9_tokenizer_coverage (cs : List Char) :
    (∃ body, tokenize cs = body ++ [⟨END_OF_FILE, [], 1 + (countNL cs : Int)⟩] ∧
      ∀ t ∈ body, t.type ≠ END_OF_FILE) ∧
    List.Sublist (cs.filter fun c => isalnum c || (ispunct c && !(c = dquote)))
      (concatTexts (tokenize cs)) :=
  ⟨tokenizeAux_eof (cs.length + 1) cs 1 (Nat.lt_succ_self _),
   tokenizeAux_coverage (cs.length + 1) cs 1 (Nat.lt_succ_self _)⟩

theorem c9_tokenizer_coverage_w :
    List.Sublist (("a(1)".toList).filter fun c => isalnum c || (ispunct c && !(c = dquote)))
      (concatTexts (tokenize ("a(1)".toList))) :=
  (c9_tokenizer_coverage ("a(1)".toList)).2

-- Supporting lemmas for C4, C6, C7, C10: the two passes.

theorem collectArgs_close {t : Token} (h : t.value = [')']) (ts : List Token) :
    collectArgs (t :: ts) = ([], ts, true) := by
  simp [collectArgs, h]

theorem collectArgs_eof {t : Token} (h1 : ¬ (t.value = [')'])) (h2 : t.type = END_OF_FILE)
    (ts : List Token) : collectArgs (t :: ts) = ([], t :: ts, false) := by
  simp [collectArgs, h1, h2]

theorem collectArgs_one {t : Token} (h1 : ¬ (t.value = [')'])) (h2 : ¬ (t.type = END_OF_FILE)) :
    collectArgs [t] =
      ((if t.type = LITERAL ∨ t.type = IDENTIFIER ∨ t.type = STRING_LITERAL
        then [t.value] else []), [], false) := by
  simp [collectArgs, h1, h2]

theorem collectArgs_comma {t u : Token} (h1 : ¬ (t.value = [')']))
    (h2 : ¬ (t.type = END_OF_FILE)) (h3 : u.value = [',']) (us : List Token) :
    collectArgs (t :: u :: us) =
      ((if t.type = LITERAL ∨ t.type = IDENTIFIER ∨ t.type = STRING_LITERAL
        then [t.value] else []) ++ (collectArgs us).1,
       (collectArgs us).2.1, (collectArgs us).2.2) := by
  rw [collectArgs.eq_2, if_neg h1, if_neg h2]
  dsimp only
  rw [if_pos h3]

theorem collectArgs_step {t u : Token} (h1 : ¬ (t.value = [')']))
    (h2 : ¬ (t.type = END_OF_FILE)) (h3 : ¬ (u.value = [','])) (us : List Token) :
    collectArgs (t :: u :: us) =
      ((if t.type = LITERAL ∨ t.type = IDENTIFIER ∨ t.type = STRING_LITERAL
        then [t.value] else []) ++ (collectArgs (u :: us)).1,
       (collectArgs (u :: us)).2.1, (collectArgs (u :: us)).2.2) := by
  rw [collectArgs.eq_2, if_neg h1, if_neg h2]
  dsimp only
  rw [if_neg h3]

theorem collectArgs_rest_len :
    ∀ (n : Nat) (ts : List Token), ts.length ≤ n →
      (collectArgs ts).2.1.length ≤ ts.length := by
  intro n
  induction n with
  | zero =>
    intro ts h
    have h0 : ts = [] := List.eq_nil_of_length_eq_zero (Nat.le_zero.mp h)
    subst h0
    simp [collectArgs]
  | succ n ih =>
    intro ts h
    cases ts with
    | nil => simp [collectArgs]
    | cons t ts' =>
      by_cases hv : t.value = [')']
      · rw [collectArgs_close hv]
        simp
      · by_cases he : t.type = END_OF_FILE
        · rw [collectArgs_eof hv he]
        · cases ts' with
          | nil =>
            rw [collectArgs_one hv he]
            simp
          | cons u us =>
            simp only [List.length_cons] at h
            by_cases hu : u.value = [',']
            · rw [collectArgs_comma hv he hu]
              have := ih us (by omega)
              simp only [List.length_cons]
              omega
            · rw [collectArgs_step hv he hu]
              have := ih (u :: us) (by simp only [List.length_cons]; omega)
              simp only [List.length_cons] at this ⊢
              omega

theorem detect_nil (nm : Token) (tbl : FunctionTable) :
    detectFunctionCall nm [] tbl = ([], tbl) := rfl

theorem detect_paren {u : Token} (hu : u.value = ['(']) (nm : Token) (rest : List Token)
    (tbl : FunctionTable) :
    detectFunctionCall nm (u :: rest) tbl =
      ((collectArgs rest).2.1,
       insertIfAbsent tbl nm.value ⟨nm.value, (collectArgs rest).1, nm.line⟩) := by
  simp [detectFunctionCall, hu]

theorem detect_noparen {u : Token} (hu : ¬ (u.value = ['('])) (nm : Token) (rest : List Token)
    (tbl : FunctionTable) :
    detectFunctionCall nm (u :: rest) tbl = (u :: rest, tbl) := by
  simp [detectFunctionCall, hu]

theorem validate_nil (nm : Token) (tbl : FunctionTable) :
    validateFunctionCall nm [] tbl =
      ([], [OutLine.callOpen nm.value, OutLine.closeLine]) := rfl

theorem validate_paren {u : Token} (hu : u.value = ['(']) (nm : Token) (rest : List Token)
    (tbl : FunctionTable) :
    validateFunctionCall nm (u :: rest) tbl =
      ((collectArgs rest).2.1,
        OutLine.callOpen nm.value ::
        ((if (collectArgs rest).2.2 then [] else [OutLine.missingClose]) ++
         (match lookupTbl tbl nm.value with
          | some sig =>
            if sig.argumentTypes.length ≠ (collectArgs rest).1.length then
              [OutLine.arityErr nm.value sig.line sig.argumentTypes.length
                (collectArgs rest).1.length]
            else []
          | none => [OutLine.unknownFn nm.value nm.line]) ++
         [OutLine.closeLine])) := by
  simp [validateFunctionCall, hu]

theorem validate_noparen {u : Token} (hu : ¬ (u.value = ['('])) (nm : Token)
    (rest : List Token) (tbl : FunctionTable) :
    validateFunctionCall nm (u :: rest) tbl =
      (u :: rest, [OutLine.callOpen nm.value, OutLine.closeLine]) := by
  simp [validateFunctionCall, hu]

theorem ps_ident_first {t : Token} (h1 : t.type = IDENTIFIER) (h2 : t.value ≠ ['('])
    (rest : List Token) (tbl : FunctionTable) :
    parseStatement true (t :: rest) tbl =
      ((detectFunctionCall t rest tbl).1, (detectFunctionCall t rest tbl).2, []) := by
  simp [parseStatement, h1, h2]

theorem ps_ident_second {t : Token} (h1 : t.type = IDENTIFIER) (h2 : t.value ≠ ['('])
    (rest : List Token) (tbl : FunctionTable) :
    parseStatement false (t :: rest) tbl =
      ((validateFunctionCall t rest tbl).1, tbl, (validateFunctionCall t rest tbl).2) := by
  simp [parseStatement, h1, h2]

theorem ps_kw {t : Token} (h : t.type = KEYWORD) (b : Bool) (rest : List Token)
    (tbl : FunctionTable) :
    parseStatement b (t :: rest) tbl = (rest, tbl, [OutLine.kw t.value]) := by
  have hni : ¬ (t.type = IDENTIFIER ∧ t.value ≠ ['(']) := by
    intro hc
    rw [h] at hc
    exact absurd hc.1 (by decide)
  simp [parseStatement, hni, h]

theorem ps_other {t : Token} (h1 : ¬ (t.type = IDENTIFIER ∧ t.value ≠ ['(']))
    (h2 : ¬ (t.type = KEYWORD)) (b : Bool) (rest : List Token) (tbl : FunctionTable) :
    parseStatement b (t :: rest) tbl = (rest, tbl, [OutLine.term t.value]) := by
  simp [parseStatement, h1, h2]

theorem detect_validate_rest_eq (nm : Token) (ts : List Token) (tbl tbl' : FunctionTable) :
    (detectFunctionCall nm ts tbl).1 = (validateFunctionCall nm ts tbl').1 := by
  cases ts with
  | nil => rfl
  | cons u rest =>
    by_cases hu : u.value = ['(']
    · rw [detect_paren hu, validate_paren hu]
    · rw [detect_noparen hu, validate_noparen hu]

theorem parseStatement_rest_eq (ts : List Token) (tbl tbl' : FunctionTable) :
    (parseStatement true ts tbl).1 = (parseStatement false ts tbl').1 := by
  cases ts with
  | nil => rfl
  | cons t rest =>
    by_cases hc : t.type = IDENTIFIER ∧ t.value ≠ ['(']
    · rw [ps_ident_first hc.1 hc.2, ps_ident_second hc.1 hc.2]
      exact detect_validate_rest_eq t rest tbl tbl'
    · by_cases hk : t.type = KEYWORD
      · rw [ps_kw hk, ps_kw hk]
      · rw [ps_other hc hk, ps_other hc hk]

theorem detect_rest_len (nm : Token) (ts : List Token) (tbl : FunctionTable) :
    (detectFunctionCall nm ts tbl).1.length ≤ ts.length := by
  cases ts with
  | nil => simp [detect_nil]
  | cons u rest =>
    by_cases hu : u.value = ['(']
    · rw [detect_paren hu]
      have := collectArgs_rest_len rest.length rest (Nat.le_refl _)
      simp only [List.length_cons]
      omega
    · rw [detect_noparen hu]

theorem parseStatement_rest_len (b : Bool) (t : Token) (rest : List Token)
    (tbl : FunctionTable) :
    (parseStatement b (t :: rest) tbl).1.length < (t :: rest).length := by
  by_cases hc : t.type = IDENTIFIER ∧ t.value ≠ ['(']
  · cases b with
    | true =>
      rw [ps_ident_first hc.1 hc.2]
      have := detect_rest_len t rest tbl
      simp only [List.length_cons]
      omega
    | false =>
      rw [ps_ident_second hc.1 hc.2]
      have h1 : (validateFunctionCall t rest tbl).1 = (detectFunctionCall t rest tbl).1 :=
        (detect_validate_rest_eq t rest tbl tbl).symm
      dsimp only
      rw [h1]
      have := detect_rest_len t rest tbl
      simp only [List.length_cons]
      omega
  · by_cases hk : t.type = KEYWORD
    · rw [ps_kw hk]
      simp
    · rw [ps_other hc hk]
      simp

theorem lookupTbl_cons (k0 : List Char) (s0 : FunctionSignature) (m : FunctionTable)
    (n : List Char) :
    lookupTbl ((k0, s0) :: m) n = if k0 = n then some s0 else lookupTbl m n := rfl

theorem lookupTbl_append_some (tbl l : FunctionTable) (n : List Char)
    (s : FunctionSignature) (h : lookupTbl tbl n = some s) :
    lookupTbl (tbl ++ l) n = some s := by
  induction tbl with
  | nil => simp [lookupTbl] at h
  | cons kv m ih =>
    obtain ⟨k0, s0⟩ := kv
    rw [lookupTbl_cons] at h
    rw [List.cons_append, lookupTbl_cons]
    by_cases hk : k0 = n
    · rw [if_pos hk] at h ⊢
      exact h
    · rw [if_neg hk] at h ⊢
      exact ih h

theorem lookupTbl_append_self (tbl : FunctionTable) (k : List Char)
    (sig : FunctionSignature) (h : lookupTbl tbl k = none) :
    lookupTbl (tbl ++ [(k, sig)]) k = some sig := by
  induction tbl with
  | nil => simp [lookupTbl]
  | cons kv m ih =>
    obtain ⟨k0, s0⟩ := kv
    rw [lookupTbl_cons] at h
    rw [List.cons_append, lookupTbl_cons]
    by_cases hk : k0 = k
    · rw [if_pos hk] at h
      exact absurd h (by simp)
    · rw [if_neg hk] at h ⊢
      exact ih h

theorem insertIfAbsent_mono (tbl : FunctionTable) (k : List Char) (sig : FunctionSignature)
    (n : List Char) (s : FunctionSignature) (h : lookupTbl tbl n = some s) :
    lookupTbl (insertIfAbsent tbl k sig) n = some s := by
  unfold insertIfAbsent
  cases hk : lookupTbl tbl k with
  | none => exact lookupTbl_append_some tbl _ n s h
  | some _ => exact h

theorem insertIfAbsent_self (tbl : FunctionTable) (k : List Char) (sig : FunctionSignature) :
    ∃ s, lookupTbl (insertIfAbsent tbl k sig) k = some s := by
  unfold insertIfAbsent
  cases hk : lookupTbl tbl k with
  | none => exact ⟨sig, lookupTbl_append_self tbl k sig hk⟩
  | some s => exact ⟨s, hk⟩

theorem parseStatement_tbl_mono (b : Bool) (ts : List Token) (tbl : FunctionTable)
    (n : List Char) (s : FunctionSignature) (h : lookupTbl tbl n = some s) :
    lookupTbl (parseStatement b ts tbl).2.1 n = some s := by
  cases ts with
  | nil => exact h
  | cons t rest =>
    by_cases hc : t.type = IDENTIFIER ∧ t.value ≠ ['(']
    · cases b with
      | true =>
        rw [ps_ident_first hc.1 hc.2]
        cases rest with
        | nil => exact h
        | cons u rest' =>
          by_cases hu : u.value = ['(']
          · rw [detect_paren hu]
            exact insertIfAbsent_mono tbl _ _ n s h
          · rw [detect_noparen hu]
            exact h
      | false =>
        rw [ps_ident_second hc.1 hc.2]
        exact h
    · by_cases hk : t.type = KEYWORD
      · rw [ps_kw hk]; exact h
      · rw [ps_other hc hk]; exact h

theorem passRun_nil (f : Nat) (b : Bool) (tbl : FunctionTable) :
    passRun f b [] tbl = (tbl, []) := by
  cases f <;> rfl

theorem passRun_eofhead {t : Token} (h : t.type = END_OF_FILE) (f : Nat) (b : Bool)
    (ts' : List Token) (tbl : FunctionTable) :
    passRun (f + 1) b (t :: ts') tbl = (tbl, []) := by
  simp [passRun, h]

theorem passRun_cons {t : Token} (h : ¬ (t.type = END_OF_FILE)) (f : Nat) (b : Bool)
    (ts' : List Token) (tbl : FunctionTable) :
    passRun (f + 1) b (t :: ts') tbl =
      ((passRun f b (parseStatement b (t :: ts') tbl).1
          (parseStatement b (t :: ts') tbl).2.1).1,
       (parseStatement b (t :: ts') tbl).2.2 ++
         (passRun f b (parseStatement b (t :: ts') tbl).1
           (parseStatement b (t :: ts') tbl).2.1).2) := by
  simp [passRun, h]

theorem passRun_tbl_mono :
    ∀ (f : Nat) (b : Bool) (ts : List Token) (tbl : FunctionTable) (n : List Char)
      (s : FunctionSignature), lookupTbl tbl n = some s →
      lookupTbl (passRun f b ts tbl).1 n = some s := by
  intro f
  induction f with
  | zero => intro b ts tbl n s h; exact h
  | succ f ih =>
    intro b ts tbl n s h
    cases ts with
    | nil => rw [passRun_nil]; exact h
    | cons t ts' =>
      by_cases he : t.type = END_OF_FILE
      · rw [passRun_eofhead he]; exact h
      · rw [passRun_cons he]
        exact ih b _ _ n s (parseStatement_tbl_mono b (t :: ts') tbl n s h)

theorem parseStatement_ident_entry {t u : Token} (ht : t.type = IDENTIFIER)
    (hv : t.value ≠ ['(']) (hu : u.value = ['(']) (rest' : List Token)
    (tbl : FunctionTable) :
    ∃ s, lookupTbl (parseStatement true (t :: u :: rest') tbl).2.1 t.value = some s := by
  rw [ps_ident_first ht hv, detect_paren hu]
  exact insertIfAbsent_self tbl t.value _

theorem validate_no_unknown {nm : Token} {ts : List Token} {tbl : FunctionTable}
    (h : ∃ s, lookupTbl tbl nm.value = some s) :
    ∀ l ∈ (validateFunctionCall nm ts tbl).2, ∀ n2 ln, l ≠ OutLine.unknownFn n2 ln := by
  obtain ⟨s, hs⟩ := h
  cases ts with
  | nil =>
    rw [validate_nil]
    intro l hl n2 ln
    rcases List.mem_cons.mp hl with hl | hl
    · subst hl; simp
    · rcases List.mem_cons.mp hl with hl | hl
      · subst hl; simp
      · simp at hl
  | cons u rest =>
    by_cases hu : u.value = ['(']
    · rw [validate_paren hu, hs]
      dsimp only
      intro l hl n2 ln
      rcases List.mem_cons.mp hl with hl | hl
      · subst hl; simp
      · rcases List.mem_append.mp hl with hl | hl
        · rcases List.mem_append.mp hl with hl | hl
          · by_cases hcl : (collectArgs rest).2.2 = true
            · rw [hcl] at hl
              simp at hl
            · simp only [Bool.not_eq_true] at hcl
              rw [hcl] at hl
              simp at hl
              subst hl; simp
          · by_cases hne : s.argumentTypes.length ≠ (collectArgs rest).1.length
            · rw [if_pos hne] at hl
              simp at hl
              subst hl; simp
            · rw [if_neg hne] at hl
              simp at hl
        · simp at hl
          subst hl; simp
    · rw [validate_noparen hu]
      intro l hl n2 ln
      rcases List.mem_cons.mp hl with hl | hl
      · subst hl; simp
      · rcases List.mem_cons.mp hl with hl | hl
        · subst hl; simp
        · simp at hl

theorem parseStatement_first_lines (ts : List Token) (tbl : FunctionTable) :
    ∀ l ∈ (parseStatement true ts tbl).2.2,
      (∃ v, l = OutLine.kw v) ∨ (∃ v, l = OutLine.term v) := by
  cases ts with
  | nil => simp [parseStatement]
  | cons t rest =>
    by_cases hc : t.type = IDENTIFIER ∧ t.value ≠ ['(']
    · rw [ps_ident_first hc.1 hc.2]
      simp
    · by_cases hk : t.type = KEYWORD
      · rw [ps_kw hk]
        intro l hl
        simp at hl
        subst hl
        exact Or.inl ⟨t.value, rfl⟩
      · rw [ps_other hc hk]
        intro l hl
        simp at hl
        subst hl
        exact Or.inr ⟨t.value, rfl⟩

theorem passRun_first_lines :
    ∀ (f : Nat) (ts : List Token) (tbl : FunctionTable),
      ∀ l ∈ (passRun f true ts tbl).2,
        (∃ v, l = OutLine.kw v) ∨ (∃ v, l = OutLine.term v) := by
  intro f
  induction f with
  | zero => intro ts tbl l hl; simp [passRun] at hl
  | succ f ih =>
    intro ts tbl l hl
    cases ts with
    | nil => rw [passRun_nil] at hl; simp at hl
    | cons t ts' =>
      by_cases he : t.type = END_OF_FILE
      · rw [passRun_eofhead he] at hl; simp at hl
      · rw [passRun_cons he] at hl
        rcases List.mem_append.mp hl with hl | hl
        · exact parseStatement_first_lines (t :: ts') tbl l hl
        · exact ih _ _ l hl

theorem parseStatement_false_tbl (ts : List Token) (tbl : FunctionTable) :
    (parseStatement false ts tbl).2.1 = tbl := by
  cases ts with
  | nil => rfl
  | cons t rest =>
    by_cases hc : t.type = IDENTIFIER ∧ t.value ≠ ['(']
    · rw [ps_ident_second hc.1 hc.2]
    · by_cases hk : t.type = KEYWORD
      · rw [ps_kw hk]
      · rw [ps_other hc hk]

theorem passRun_no_unknown :
    ∀ (f : Nat) (ts : List Token) (tbl T : FunctionTable),
      ts.length < f →
      (∀ n s, lookupTbl (passRun f true ts tbl).1 n = some s → lookupTbl T n = some s) →
      ∀ l ∈ (passRun f false ts T).2, ∀ nm ln, l ≠ OutLine.unknownFn nm ln := by
  intro f
  induction f with
  | zero => intro ts tbl T _ _ l hl; simp [passRun] at hl
  | succ f ih =>
    intro ts tbl T hlen hT l hl
    cases ts with
    | nil => rw [passRun_nil] at hl; simp at hl
    | cons t ts' =>
      by_cases he : t.type = END_OF_FILE
      · rw [passRun_eofhead he] at hl; simp at hl
      · rw [passRun_cons he] at hl
        have hrun1 : (passRun (f + 1) true (t :: ts') tbl).1 =
            (passRun f true (parseStatement true (t :: ts') tbl).1
              (parseStatement true (t :: ts') tbl).2.1).1 := by
          rw [passRun_cons he]
        rcases List.mem_append.mp hl with hl | hl
        · -- line written by the current statement of pass 2
          by_cases hc : t.type = IDENTIFIER ∧ t.value ≠ ['(']
          · rw [ps_ident_second hc.1 hc.2] at hl
            dsimp only at hl
            cases ts' with
            | nil =>
              rw [validate_nil] at hl
              intro nm ln
              rcases List.mem_cons.mp hl with hl | hl
              · subst hl; simp
              · rcases List.mem_cons.mp hl with hl | hl
                · subst hl; simp
                · simp at hl
            | cons u rest' =>
              by_cases hu : u.value = ['(']
              · obtain ⟨s0, hs0⟩ := parseStatement_ident_entry hc.1 hc.2 hu rest' tbl
                have hs1 := passRun_tbl_mono f true
                  (parseStatement true (t :: u :: rest') tbl).1
                  (parseStatement true (t :: u :: rest') tbl).2.1 t.value s0 hs0
                have hs2 : lookupTbl T t.value = some s0 := by
                  refine hT t.value s0 ?_
                  rw [hrun1]
                  exact hs1
                exact validate_no_unknown ⟨s0, hs2⟩ l hl
              · rw [validate_noparen hu] at hl
                intro nm ln
                rcases List.mem_cons.mp hl with hl | hl
                · subst hl; simp
                · rcases List.mem_cons.mp hl with hl | hl
                  · subst hl; simp
                  · simp at hl
          · by_cases hk : t.type = KEYWORD
            · rw [ps_kw hk] at hl
              simp at hl
              subst hl; simp
            · rw [ps_other hc hk] at hl
              simp at hl
              subst hl; simp
        · -- line written further on: induction
          have hlen2 : (parseStatement false (t :: ts') T).1.length < f := by
            have h1 := parseStatement_rest_len false t ts' T
            simp only [List.length_cons] at h1 hlen
            omega
          rw [parseStatement_false_tbl (t :: ts') T] at hl
          refine ih (parseStatement false (t :: ts') T).1
            (parseStatement true (t :: ts') tbl).2.1 T hlen2 ?_ l hl
          intro n s hns
          refine hT n s ?_
          rw [hrun1]
          rw [parseStatement_rest_eq (t :: ts') tbl T]
          exact hns

/-- C4 [confirmed]: when the call table is the one pass 1 built over the same
token sequence, the text returned by pass 2 (the whole shared emission buffer)
never contains an Unknown-function diagnostic line: every identifier that
pass 2 finds immediately followed by `(` was registered by pass 1 at the same
position, and the table only grows. -/
theorem c4_no_unknown_function :
    ∀ (ts : List Token) (l : OutLine), l ∈ secondPassOutput ts →
      ∀ nm ln, l ≠ OutLine.unknownFn nm ln := by
  intro ts l hl nm ln
  unfold secondPassOutput at hl
  rcases List.mem_append.mp hl with hl | hl
  · unfold firstPass at hl
    rcases passRun_first_lines (ts.length + 1) ts [] l hl with ⟨v, hv⟩ | ⟨v, hv⟩ <;>
      (subst hv; simp)
  · unfold secondPassLines at hl
    exact passRun_no_unknown (ts.length + 1) ts [] (firstPass ts).1 (Nat.lt_succ_self _)
      (fun n s h => h) l hl nm ln

theorem c4_no_unknown_function_w :
    OutLine.callOpen ("f".toList) ≠ OutLine.unknownFn ("f".toList) 1 :=
  c4_no_unknown_function (tokenize ("f(1)".toList)) (OutLine.callOpen ("f".toList))
    (by decide) ("f".toList) 1

/-- C6 [confirmed]: the call table is first-seen-wins — an entry present in
the table is never altered by any further pass-1 processing — and on the
input `a(1,2) a(3)` pass 1 leaves `a` mapped to the two argument texts of its
first occurrence. -/
theorem c6_first_seen_wins :
    (∀ (f : Nat) (ts : List Token) (tbl : FunctionTable) (n : List Char)
      (s : FunctionSignature), lookupTbl tbl n = some s →
        lookupTbl (passRun f true ts tbl).1 n = some s) ∧
    lookupTbl (firstPass (tokenize ("a(1,2) a(3)".toList))).1 ("a".toList) =
      some ⟨"a".toList, ["1".toList, "2".toList], 1⟩ :=
  ⟨fun f ts tbl n s h => passRun_tbl_mono f true ts tbl n s h, by decide⟩

theorem c6_first_seen_wins_w :
    lookupTbl (passRun 1 true [] [(("a".toList),
      ⟨"a".toList, ["1".toList], 1⟩)]).1 ("a".toList) =
      some ⟨"a".toList, ["1".toList], 1⟩ :=
  c6_first_seen_wins.1 1 [] [(("a".toList), ⟨"a".toList, ["1".toList], 1⟩)]
    ("a".toList) ⟨"a".toList, ["1".toList], 1⟩ (by decide)

/-- C7 [confirmed]: in pass 2, for an identifier followed by `(` whose name
has a table entry, the arity diagnostic is emitted exactly when the stored
count differs from the re-collected count, `render` produces exactly the
claimed text for it, and on `a(1,2) a(3)` the second occurrence yields the
diagnostic expecting 2 arguments with 1 provided. -/
theorem c7_arity_diagnostic :
    (∀ (nm u : Token) (ts' : List Token) (tbl : FunctionTable) (sig : FunctionSignature),
      nm.type = IDENTIFIER → nm.value ≠ ['('] → u.value = ['('] →
      lookupTbl tbl nm.value = some sig →
      (parseStatement false (nm :: u :: ts') tbl).2.2 =
        OutLine.callOpen nm.value ::
          ((if (collectArgs ts').2.2 then [] else [OutLine.missingClose]) ++
           (if sig.argumentTypes.length ≠ (collectArgs ts').1.length then
              [OutLine.arityErr nm.value sig.line sig.argumentTypes.length
                (collectArgs ts').1.length]
            else []) ++ [OutLine.closeLine])) ∧
    (∀ (n : List Char) (dl : Int) (N M : Nat),
      render (OutLine.arityErr n dl N M) =
        "-- Error: Function ".toList ++ [squote] ++ n ++ [squote] ++
        " at line ".toList ++ intChars dl ++ " expects ".toList ++ natChars N ++
        " arguments, but ".toList ++ natChars M ++ " were provided.".toList) ∧
    pipeline ("a(1,2) a(3)".toList) =
      some ["a (".toList, ");".toList, "a (".toList,
        "-- Error: Function ".toList ++ [squote] ++ "a".toList ++ [squote] ++
          " at line 1 expects 2 arguments, but 1 were provided.".toList,
        ");".toList] := by
  refine ⟨?_, fun n dl N M => rfl, by decide⟩
  intro nm u ts' tbl sig ht hv hu hsig
  rw [ps_ident_second ht hv]
  dsimp only
  rw [validate_paren hu, hsig]

theorem c7_arity_diagnostic_w :
    (parseStatement false
      ([⟨IDENTIFIER, "a".toList, 1⟩, ⟨SYMBOL, "(".toList, 1⟩,
        ⟨LITERAL, "3".toList, 1⟩, ⟨SYMBOL, ")".toList, 1⟩])
      [(("a".toList), ⟨"a".toList, ["1".toList, "2".toList], 1⟩)]).2.2 =
      OutLine.callOpen ("a".toList) ::
        ((if (collectArgs [⟨LITERAL, "3".toList, 1⟩, ⟨SYMBOL, ")".toList, 1⟩]).2.2 then []
          else [OutLine.missingClose]) ++
         (if ((⟨"a".toList, ["1".toList, "2".toList], 1⟩ :
              FunctionSignature)).argumentTypes.length ≠
            (collectArgs [⟨LITERAL, "3".toList, 1⟩, ⟨SYMBOL, ")".toList, 1⟩]).1.length then
            [OutLine.arityErr ("a".toList) 1
              ((⟨"a".toList, ["1".toList, "2".toList], 1⟩ :
                FunctionSignature)).argumentTypes.length
              (collectArgs [⟨LITERAL, "3".toList, 1⟩, ⟨SYMBOL, ")".toList, 1⟩]).1.length]
          else []) ++ [OutLine.closeLine]) :=
  c7_arity_diagnostic.1 ⟨IDENTIFIER, "a".toList, 1⟩ ⟨SYMBOL, "(".toList, 1⟩
    [⟨LITERAL, "3".toList, 1⟩, ⟨SYMBOL, ")".toList, 1⟩]
    [(("a".toList), ⟨"a".toList, ["1".toList, "2".toList], 1⟩)]
    ⟨"a".toList, ["1".toList, "2".toList], 1⟩
    rfl (by decide) rfl (by decide)

theorem collectArgs_flat :
    ∀ (n : Nat) (pre : List Token), pre.length ≤ n →
      (∀ t ∈ pre, t.value ≠ [')'] ∧ t.type ≠ END_OF_FILE ∧
        (t.value = [','] → t.type = SYMBOL)) →
      ∀ (cp : Token) (post : List Token), cp.value = [')'] →
      collectArgs (pre ++ cp :: post) =
        (pre.filterMap (fun t =>
          if t.type = LITERAL ∨ t.type = IDENTIFIER ∨ t.type = STRING_LITERAL
          then some t.value else none), post, true) := by
  intro n
  induction n with
  | zero =>
    intro pre h _ cp post hcp
    have h0 : pre = [] := List.eq_nil_of_length_eq_zero (Nat.le_zero.mp h)
    subst h0
    simp only [List.nil_append, List.filterMap_nil]
    rw [collectArgs_close hcp]
  | succ n ih =>
    intro pre hn hpre cp post hcp
    cases pre with
    | nil =>
      simp only [List.nil_append, List.filterMap_nil]
      rw [collectArgs_close hcp]
    | cons t pre' =>
      obtain ⟨hv, he, _⟩ := hpre t (List.mem_cons_self _ _)
      cases pre' with
      | nil =>
        have hcpc : ¬ (cp.value = [',']) := by rw [hcp]; decide
        rw [List.cons_append, List.nil_append, collectArgs_step hv he hcpc,
          collectArgs_close hcp]
        by_cases hP : t.type = LITERAL ∨ t.type = IDENTIFIER ∨ t.type = STRING_LITERAL <;>
          simp [hP, List.filterMap_cons]
      | cons u pre'' =>
        obtain ⟨huv, hue, hucomma⟩ := hpre u (List.mem_cons_of_mem _ (List.mem_cons_self _ _))
        by_cases hu : u.value = [',']
        · have husym : u.type = SYMBOL := hucomma hu
          rw [List.cons_append, List.cons_append, collectArgs_comma hv he hu]
          have hlen2 : pre''.length ≤ n := by
            simp only [List.length_cons] at hn
            omega
          have hrec := ih pre'' hlen2
            (fun x hx => hpre x (List.mem_cons_of_mem _ (List.mem_cons_of_mem _ hx)))
            cp post hcp
          rw [hrec]
          have hfu : ¬ (u.type = LITERAL ∨ u.type = IDENTIFIER ∨ u.type = STRING_LITERAL) := by
            rw [husym]; decide
          have hfu2 : (if u.type = LITERAL ∨ u.type = IDENTIFIER ∨ u.type = STRING_LITERAL
              then some u.value else none) = none := if_neg hfu
          by_cases hP : t.type = LITERAL ∨ t.type = IDENTIFIER ∨ t.type = STRING_LITERAL <;>
            simp [hP, List.filterMap_cons, hfu2]
        · rw [List.cons_append, List.cons_append, collectArgs_step hv he hu]
          have hlen2 : (u :: pre'').length ≤ n := by
            simp only [List.length_cons] at hn ⊢
            omega
          have hrec := ih (u :: pre'') hlen2
            (fun x hx => hpre x (List.mem_cons_of_mem _ hx)) cp post hcp
          rw [List.cons_append] at hrec
          rw [hrec]
          by_cases hP : t.type = LITERAL ∨ t.type = IDENTIFIER ∨ t.type = STRING_LITERAL <;>
            simp [hP, List.filterMap_cons]

/-- C10 [confirmed]: argument collection is flat — it stops at the first `)`
token, records the texts of the intervening `LITERAL`/`IDENTIFIER`/
`STRING_LITERAL` tokens and discards other symbols — and on `f(g(1))` pass 1
records only `f` with arguments `[g, 1]`, records nothing for `g`, and pass 2
processes the leftover outer `)` as a standalone statement, emitting an extra
`);` line for it. -/
theorem c10_flat_args :
    (∀ (pre : List Token),
      (∀ t ∈ pre, t.value ≠ [')'] ∧ t.type ≠ END_OF_FILE ∧
        (t.value = [','] → t.type = SYMBOL)) →
      ∀ (cp : Token) (post : List Token), cp.value = [')'] →
      collectArgs (pre ++ cp :: post) =
        (pre.filterMap (fun t =>
          if t.type = LITERAL ∨ t.type = IDENTIFIER ∨ t.type = STRING_LITERAL
          then some t.value else none), post, true)) ∧
    lookupTbl (firstPass (tokenize ("f(g(1))\n".toList))).1 ("f".toList) =
      some ⟨"f".toList, ["g".toList, "1".toList], 1⟩ ∧
    lookupTbl (firstPass (tokenize ("f(g(1))\n".toList))).1 ("g".toList) = none ∧
    secondPassLines (tokenize ("f(g(1))\n".toList))
        (firstPass (tokenize ("f(g(1))\n".toList))).1 =
      [OutLine.callOpen ("f".toList), OutLine.closeLine, OutLine.term (")".toList)] :=
  ⟨fun pre hpre cp post hcp =>
    collectArgs_flat pre.length pre (Nat.le_refl _) hpre cp post hcp,
   by decide, by decide, by decide⟩

theorem c10_flat_args_w :
    collectArgs ([⟨IDENTIFIER, "g".toList, 1⟩, ⟨SYMBOL, "(".toList, 1⟩,
        ⟨LITERAL, "1".toList, 1⟩] ++ (⟨SYMBOL, ")".toList, 1⟩ : Token) ::
        [(⟨SYMBOL, ")".toList, 1⟩ : Token)]) =
      (([⟨IDENTIFIER, "g".toList, 1⟩, ⟨SYMBOL, "(".toList, 1⟩,
        ⟨LITERAL, "1".toList, 1⟩] : List Token).filterMap (fun t =>
          if t.type = LITERAL ∨ t.type = IDENTIFIER ∨ t.type = STRING_LITERAL
          then some t.value else none),
       [(⟨SYMBOL, ")".toList, 1⟩ : Token)], true) :=
  c10_flat_args.1
    [⟨IDENTIFIER, "g".toList, 1⟩, ⟨SYMBOL, "(".toList, 1⟩, ⟨LITERAL, "1".toList, 1⟩]
    (by decide) ⟨SYMBOL, ")".toList, 1⟩ [⟨SYMBOL, ")".toList, 1⟩] (by decide)

theorem strFindAux_spec :
    ∀ (fu : Nat) (line key : List Char) (i p : Nat),
      strFindAux fu line key i = some p → i ≤ p ∧ p + key.length ≤ line.length := by
  intro fu
  induction fu with
  | zero => intro line key i p h; simp [strFindAux] at h
  | succ fu ih =>
    intro line key i p h
    unfold strFindAux at h
    by_cases h1 : line.length < i + key.length
    · rw [if_pos h1] at h; simp at h
    · rw [if_neg h1] at h
      by_cases h2 : matchAt key (line.drop i) = true
      · rw [if_pos h2] at h
        simp at h
        subst h
        omega
      · rw [if_neg h2] at h
        have := ih line key (i + 1) p h
        omega

theorem strFind_spec (line key : List Char) (pos p : Nat)
    (h : strFind line key pos = some p) : pos ≤ p ∧ p + key.length ≤ line.length :=
  strFindAux_spec _ line key pos p h

/-- For a nonempty key the replacement loop always terminates within
`line.length - pos` further iterations: each replacement removes
`key.length ≥ 1` characters from the unscanned suffix.  This justifies the
fuel `line.length + 1` used by `replaceAll`. -/
theorem replaceAllAux_sufficient :
    ∀ (f : Nat) (key v line : List Char) (pos : Nat), key ≠ [] →
      line.length - pos < f →
      ∃ r, replaceAllAux f key v line pos = some r := by
  intro f
  induction f with
  | zero => intro key v line pos _ h; exact absurd h (Nat.not_lt_zero _)
  | succ f ih =>
    intro key v line pos hk h
    unfold replaceAllAux
    cases hfind : strFind line key pos with
    | none => exact ⟨line, rfl⟩
    | some p =>
      obtain ⟨hp1, hp2⟩ := strFind_spec line key pos p hfind
      have hklen : 1 ≤ key.length := by
        cases key with
        | nil => exact absurd rfl hk
        | cons a as => simp
      refine ih key v _ _ hk ?_
      have hlen : (line.take p ++ v ++ line.drop (p + key.length)).length =
          p + v.length + (line.length - (p + key.length)) := by
        simp only [List.length_append, List.length_take, List.length_drop]
        omega
      rw [hlen]
      omega

theorem replaceAll_total (key v line : List Char) (hk : key ≠ []) :
    ∃ r, replaceAll key v line = some r :=
  replaceAllAux_sufficient (line.length + 1) key v line 0 hk (by omega)
